import Mathlib

/-!
# Verification of the compression logic in `src/logic.js`

This file is a shallow embedding of the three codecs implemented in
`src/logic.js` of the digital-compression teaching app (run-length encoding,
Huffman coding, LZW), together with proofs and refutations of the spec's
testable properties.

Modelling conventions, used throughout:

* JavaScript strings are modelled as `List Char` (sequences of Unicode code
  points).  Where the source indexes a string by UTF-16 code units
  (`text[i]`, `text.length`), the embedding converts through `textUnits`,
  which produces the UTF-16 code-unit sequence of a `List Char`.  Lone
  surrogates cannot be expressed in `Char`; they can only arise in the
  source from degenerate inputs that no claim exercises.
* JavaScript objects used as string-keyed maps are modelled as association
  lists, inserted in the source's insertion order, looked up with `find?`.
  Where object key *enumeration* order matters (`Object.keys` puts
  integer-like keys such as the one-character strings "0".."9" first, in
  ascending order), the embedding reproduces that order explicitly.
* Numbers produced by `/` are modelled exactly in `ℚ` (the source only uses
  such values for display; no claim depends on float rounding).
* `JSON.stringify`/`JSON.parse` of the Huffman code table is modelled as the
  identity on the parsed table: `huffmanDecode` receives the table as an
  `Option` (with `none` standing for a falsy `codeMapJSON` argument such as
  `null`, `undefined` or the empty string).
* Display-only fields of the result objects (`steps`, `animationSteps`,
  `freqTable`, `table`, `tree`) are omitted: no claim mentions them.
-/

/-! ## Decimal numerals

`rle.encode` renders run counts with JavaScript string conversion
(`char + count`), `rle.decode` parses them with `parseInt(-, 10)`, and
`lzw.encode`/`lzw.decode` use `join(",")` / `Number(token)`.  The helpers
below model decimal rendering and parsing of nonnegative integers.
-/

/-- Numeric value of a decimal digit character, as used by `parseInt`. -/
def charVal (c : Char) : Nat := c.toNat - 48

/-- Value of an all-digit token read most-significant-digit first
(`parseInt(ds, 10)` on a token made of decimal digits). -/
def parseDigits (ds : List Char) : Nat :=
  ds.foldl (fun a c => a * 10 + charVal c) 0

/-- Little-endian decimal digits of `n` as characters.  The first argument is
fuel; `n` itself is always sufficient fuel since a number has at most as many
decimal digits as its value. -/
def decDigitsAux : Nat → Nat → List Char
  | 0, _ => []
  | fuel + 1, n => if n = 0 then [] else Nat.digitChar (n % 10) :: decDigitsAux fuel (n / 10)

/-- Decimal rendering of a nonnegative integer, mirroring JavaScript
number-to-string conversion (`String(n)`) on nonnegative integers. -/
def natToChars (n : Nat) : List Char :=
  if n = 0 then ['0'] else (decDigitsAux n n).reverse

/-- Value of a little-endian digit-character list. -/
def valLE : List Char → Nat
  | [] => 0
  | c :: cs => charVal c + 10 * valLE cs

/-! ## UTF-16 code units

The source mixes code-point iteration (`for (const char of text)`) with
code-unit indexing (`text[i]`, `text.length`).  `charUnits`/`textUnits`
produce the UTF-16 code-unit sequence of a code-point sequence. -/

/-- UTF-16 code units of a single code point. -/
def charUnits (c : Char) : List Nat :=
  if c.toNat < 65536 then [c.toNat]
  else [55296 + (c.toNat - 65536) / 1024, 56320 + (c.toNat - 65536) % 1024]

/-- UTF-16 code units of a code-point sequence (`text.length` in the source is
`(textUnits text).length`, and `text[i]` is `(textUnits text)[i]`). -/
def textUnits (s : List Char) : List Nat := (s.map charUnits).flatten

/-! ## Run-length encoding (`rle` in `src/logic.js`, lines 10–61) -/

/-- Result of `rle.encode`, keeping the fields the claims mention.  On empty
input the source returns an object without length fields; the embedding uses
`0` there. -/
structure RleResult where
  encoded : List Char
  ratio : ℚ
  originalLength : Nat
  encodedLength : Nat

/-- The inner `while` of `rle.encode`: how many characters at the front of the
rest of the text repeat the current character. -/
def runLen (c : Char) : List Char → Nat
  | [] => 0
  | x :: xs => if x = c then runLen c xs + 1 else 0

/-- The outer `while` of `rle.encode`: emit the character and the decimal run
count, then skip past the run.  The fuel argument is the remaining text length,
which bounds the number of iterations since each run is nonempty. -/
def rleEncodeAux : Nat → List Char → List Char
  | 0, _ => []
  | _, [] => []
  | fuel + 1, c :: rest =>
    let n := runLen c rest
    c :: natToChars (n + 1) ++ rleEncodeAux fuel (rest.drop n)

/-- `rle.encode` (src/logic.js lines 11–48).  Ratio and lengths are counted in
UTF-16 code units, as `text.length` does in the source. -/
def rleEncode (text : List Char) : RleResult :=
  if text = [] then ⟨[], 0, 0, 0⟩
  else
    let encoded := rleEncodeAux text.length text
    ⟨encoded,
      ((textUnits encoded).length : ℚ) / ((textUnits text).length : ℚ) * 100,
      (textUnits text).length, (textUnits encoded).length⟩

/-- `rle.decode` (src/logic.js lines 50–61): repeatedly scan for the leftmost
match of `([^0-9])([0-9]+)` and emit the character repeated by the parsed
count; positions that start no match are skipped.  Fuel is the remaining input
length, which bounds the number of scan steps. -/
def rleDecodeAux : Nat → List Char → List Char
  | 0, _ => []
  | _, [] => []
  | fuel + 1, c :: rest =>
    if c.isDigit then rleDecodeAux fuel rest
    else
      let ds := rest.takeWhile Char.isDigit
      if ds = [] then rleDecodeAux fuel rest
      else List.replicate (parseDigits ds) c ++ rleDecodeAux fuel (rest.dropWhile Char.isDigit)

/-- `rle.decode` entry point. -/
def rleDecode (text : List Char) : List Char := rleDecodeAux text.length text

/-! ## Huffman coding (`huffman` in `src/logic.js`, lines 73–195) -/

/-- Result of `huffman.encode`, keeping the fields the claims mention
(`map` is the code table; `serializedMap` is its JSON form, modelled as the
table itself).  On empty input the source returns an object without
length/map fields; the embedding uses `0`/`[]` there. -/
structure HuffResult where
  encoded : List Char
  ratio : ℚ
  originalLength : Nat
  encodedLength : Nat
  map : List (Char × List Char)

/-- Huffman tree node: a leaf holds a character, an internal node two
children; both carry a frequency (`{char, freq, left, right}` objects in the
source, with `char: null` marking internal nodes). -/
inductive HTree where
  | leaf (c : Char) (f : Nat)
  | node (f : Nat) (left right : HTree)

/-- The `freq` field of a node. -/
def HTree.freq : HTree → Nat
  | .leaf _ f => f
  | .node f _ _ => f

/-- Characters in insertion order of first appearance — the insertion order of
the keys of the `freq` object.  The first argument accumulates already-seen
characters. -/
def distinctsAux : List Char → List Char → List Char
  | _, [] => []
  | seen, c :: rest => if c ∈ seen then distinctsAux seen rest else c :: distinctsAux (c :: seen) rest

/-- Distinct characters of `s` in order of first appearance. -/
def distincts (s : List Char) : List Char := distinctsAux [] s

/-- `Object.keys` enumeration order on single-character string keys:
integer-like keys (the characters "0".."9") come first in ascending order,
then the remaining keys in insertion order. -/
def objKeys (l : List Char) : List Char :=
  (l.filter Char.isDigit).insertionSort (fun a b => a.toNat ≤ b.toNat) ++
    l.filter (fun c => !c.isDigit)

/-- Step 2 of `huffman.encode`: one leaf per distinct character, weighted by
its frequency, in `Object.keys(freq)` order. -/
def initialQueue (s : List Char) : List HTree :=
  (objKeys (distincts s)).map (fun c => HTree.leaf c (s.count c))

/-- `queue.sort((a, b) => a.freq - b.freq)`: a stable ascending sort by
frequency.  JavaScript `Array.prototype.sort` is required to be stable, as is
`insertionSort` under a total preorder; two stable sorts under the same key
produce the same permutation, so the results agree. -/
def hsort (q : List HTree) : List HTree := q.insertionSort (fun a b => a.freq ≤ b.freq)

/-- One iteration of the tree-building `while` loop: sort, take the two
lightest nodes as left and right child of a fresh node, push that node at the
end.  The fallback branch is unreachable while the queue has two elements. -/
def huffStep (q : List HTree) : List HTree :=
  match hsort q with
  | a :: b :: rest => rest ++ [HTree.node (a.freq + b.freq) a b]
  | s => s

/-- The tree-building `while (queue.length > 1)` loop.  Each iteration
shortens the queue by one, so the initial queue length is sufficient fuel. -/
def huffLoop : Nat → List HTree → List HTree
  | 0, q => q
  | fuel + 1, q => if q.length ≤ 1 then q else huffLoop fuel (huffStep q)

/-- `queue[0]` after the loop: the tree root, or `none` for an empty queue
(in the source `undefined`, which `generateCodes` ignores). -/
def buildTree (q : List HTree) : Option HTree := (huffLoop q.length q).head?

/-- `generateCodes` (lines 104–112): walk the tree, appending "0" on the left
and "1" on the right; a leaf's accumulated path becomes its code.  Codes are
collected in assignment order. -/
def genCodes : HTree → List Char → List (Char × List Char)
  | .leaf c _, cur => [(c, cur)]
  | .node _ l r, cur => genCodes l (cur ++ ['0']) ++ genCodes r (cur ++ ['1'])

/-- Lines 114–118: a lone-leaf root gets the one-bit code "0"; an internal
root starts from the empty code; a missing root (empty input) produces no
codes. -/
def huffCodes : Option HTree → List (Char × List Char)
  | none => []
  | some (HTree.leaf c f) => genCodes (HTree.leaf c f) ['0']
  | some (HTree.node f l r) => genCodes (HTree.node f l r) []

/-- The code table `codes` produced by `huffman.encode` on `s`. -/
def huffTable (s : List Char) : List (Char × List Char) :=
  huffCodes (buildTree (initialQueue s))

/-- `codes[text[i]]`: the encode loop looks the table up by a *single UTF-16
code unit* (string indexing), which hits a key exactly when that key is a BMP
character with that code unit. -/
def unitLookup (table : List (Char × List Char)) (u : Nat) : Option (List Char) :=
  (table.find? (fun e => e.1.toNat = u)).map (fun e => e.2)

/-- `huffman.encode` (lines 74–164).  The encode loop walks UTF-16 code
units; a failed lookup concatenates `undefined`, i.e. the text "undefined". -/
def huffmanEncode (s : List Char) : HuffResult :=
  if s = [] then ⟨[], 0, 0, 0, []⟩
  else
    let codes := huffTable s
    let encoded := ((textUnits s).map
      (fun u => (unitLookup codes u).getD "undefined".data)).flatten
    ⟨encoded,
      (encoded.length : ℚ) / (((textUnits s).length * 8 : Nat) : ℚ) * 100,
      (textUnits s).length * 8, encoded.length, codes⟩

/-- The error text returned when the bit string or the dictionary argument is
missing (line 167): the `MissingAuxiliaryData` message. -/
def missingDictMsg : List Char := "復元には辞書情報が必要です。".data

/-- Lookup in `reverseMap` (lines 170–173): the map is built by iterating the
code table and assigning `reverseMap[code] = char`, so a later entry with the
same code overwrites an earlier one — hence the lookup scans the reversed
table.  (Only observable if two symbols shared a code, which `encode` never
produces.) -/
def revLookup (table : List (Char × List Char)) (code : List Char) : Option Char :=
  (table.reverse.find? (fun e => e.2 = code)).map (fun e => e.1)

/-- The decode walk (lines 175–183): grow a candidate code bit by bit; on an
exact table hit emit the character and reset the candidate.  Leftover bits at
the end are dropped. -/
def hDecodeLoop (table : List (Char × List Char)) : List Char → List Char → List Char
  | _, [] => []
  | cur, b :: rest =>
    match revLookup table (cur ++ [b]) with
    | some c => c :: hDecodeLoop table [] rest
    | none => hDecodeLoop table (cur ++ [b]) rest

/-- `huffman.decode` (lines 166–188).  `codeMap = none` models a falsy
`codeMapJSON` argument (`null`, `undefined`, `""`); a present table models a
successfully parsed serialization, so the `catch` branch (parse failure of a
table produced by `encode`) is unreachable here. -/
def huffmanDecode (encodedText : List Char) (codeMap : Option (List (Char × List Char))) :
    List Char :=
  if encodedText = [] ∨ codeMap = none then missingDictMsg
  else hDecodeLoop (codeMap.getD []) [] encodedText

/-! ### Structure of the Huffman construction -/

/-- Characters at the leaves of a tree, left to right. -/
def leafChars : HTree → List Char
  | .leaf c _ => [c]
  | .node _ l r => leafChars l ++ leafChars r

/-- All leaf characters of a queue of trees. -/
def flatLeaf (q : List HTree) : List Char := (q.map leafChars).flatten

/-! ### The generated code table -/

/-- The mutual non-prefix relation between table entries. -/
def PFrel (e1 e2 : Char × List Char) : Prop := ¬ e1.2 <+: e2.2 ∧ ¬ e2.2 <+: e1.2

/-! ### Decoding against a prefix-free table -/

/-! ## LZW (`lzw` in `src/logic.js`, lines 200–327) -/

/-- Result of `lzw.encode`, keeping the fields the claims mention.  On empty
input the source returns an object without length fields; the embedding uses
`0` there. -/
structure LzwResult where
  encoded : List Char
  ratio : ℚ
  originalLength : Nat
  encodedLength : Nat

/-- The 256-entry seed dictionary of `lzw.encode`: each single character with
code point i < 256 maps to code i (lines 205–208). -/
def lzwSeedE : List (List Char × Nat) :=
  (List.range 256).map fun i => ([Char.ofNat i], i)

/-- `dict.hasOwnProperty(s)` and `dict[s]`: lookup by string key. -/
def lzwLookS (dict : List (List Char × Nat)) (w : List Char) : Option Nat :=
  (dict.find? fun e => e.1 = w).map fun e => e.2

/-- The encode loop (lines 216–272), including the final flush of `w`.  Each
emitted element is the dictionary code of the pending prefix `w`; `none`
models pushing JavaScript `undefined`, which only happens when `w` is not a
dictionary key — impossible for inputs drawn from code points 0–255. -/
def lzwEncodeLoop (dict : List (List Char × Nat)) (w : List Char) (dictSize : Nat) :
    List Char → List (Option Nat)
  | [] => if w = [] then [] else [lzwLookS dict w]
  | c :: rest =>
    if (lzwLookS dict (w ++ [c])).isSome then lzwEncodeLoop dict (w ++ [c]) dictSize rest
    else lzwLookS dict w ::
      lzwEncodeLoop (dict ++ [(w ++ [c], dictSize)]) [c] (dictSize + 1) rest

/-- `String(code)` of an emitted code as `join` renders it: the decimal
numeral, or the text "undefined" for a missing one. -/
def showCode : Option Nat → List Char
  | some n => natToChars n
  | none => "undefined".data

/-- `Array.prototype.join(",")`: the pieces separated by single commas. -/
def joinComma : List (List Char) → List Char
  | [] => []
  | [t] => t
  | t :: ts => t ++ [','] ++ joinComma ts

/-- `lzw.encode` (lines 201–288): the emitted codes joined by commas;
`encodedLength` is 12 bits per emitted code, `originalLength` 8 bits per
UTF-16 unit of the input. -/
def lzwEncode (text : List Char) : LzwResult :=
  if text = [] then ⟨[], 0, 0, 0⟩
  else
    let result := lzwEncodeLoop lzwSeedE [] 256 text
    ⟨joinComma (result.map showCode),
      ((result.length * 12 : Nat) : ℚ) / (((textUnits text).length * 8 : Nat) : ℚ) * 100,
      (textUnits text).length * 8, result.length * 12⟩

/-- JavaScript `split(",")` on a character list: always at least one token,
empty tokens between adjacent commas. -/
def splitComma : List Char → List (List Char)
  | [] => [[]]
  | c :: rest =>
    if c = ',' then [] :: splitComma rest
    else
      match splitComma rest with
      | t :: ts => (c :: t) :: ts
      | [] => [[c]]

/-- The decimal part of JavaScript `Number(token)`: decimal digits with an
optional fraction part.  `none` models NaN.  Hexadecimal, exponent and
Infinity forms and surrounding whitespace are also accepted by `Number` but
lie outside every input a claim exercises; they are not modelled. -/
def jsUnsigned (tok : List Char) : Option ℚ :=
  match tok.dropWhile Char.isDigit with
  | [] => if tok.takeWhile Char.isDigit = [] then none
          else some (parseDigits (tok.takeWhile Char.isDigit) : ℚ)
  | '.' :: fp =>
    if fp.all Char.isDigit ∧ (tok.takeWhile Char.isDigit ≠ [] ∨ fp ≠ []) then
      some ((parseDigits (tok.takeWhile Char.isDigit) : ℚ) +
        (parseDigits fp : ℚ) / ((10 : ℚ) ^ fp.length))
    else none
  | _ => none

/-- `Number(token)`: empty token is 0, an optional sign precedes the decimal
numeral; `none` models NaN. -/
def jsNumber (tok : List Char) : Option ℚ :=
  match tok with
  | [] => some 0
  | c :: rest =>
    if c = '-' then (jsUnsigned rest).map fun q => -q
    else if c = '+' then jsUnsigned rest
    else jsUnsigned (c :: rest)

/-- `String.fromCharCode(q)`: ToUint16 truncates toward zero and reduces
modulo 2^16, then the code unit becomes a character.  A surrogate result has
no `Char` counterpart; `Char.ofNat` falls back to NUL there, which no claim
exercises. -/
def fromCharCodeQ (q : ℚ) : Char :=
  Char.ofNat ((Int.tdiv q.num (q.den : Int)) % 65536).toNat

/-- The 256-entry seed dictionary of `lzw.decode` (lines 295–298): code
i < 256 maps to the single character with code point i.  Keys are compared
as the parsed numbers. -/
def lzwSeedD : List (ℚ × List Char) :=
  (List.range 256).map fun (i : Nat) => ((i : ℚ), [Char.ofNat i])

/-- `dict.hasOwnProperty(k)` and `dict[k]` in the decoder. -/
def lzwLookD (dict : List (ℚ × List Char)) (k : ℚ) : Option (List Char) :=
  (dict.find? fun e => e.1 = k).map fun e => e.2

/-- Lines 305–313: a known code, or exactly the next assignable code
(`entry = w + w.charAt(0)`), or an invalid code (`none`). -/
def lzwEntry (dict : List (ℚ × List Char)) (w : List Char) (dictSize : Nat) (k : ℚ) :
    Option (List Char) :=
  match lzwLookD dict k with
  | some e => some e
  | none => if k = (dictSize : ℚ) then some (w ++ w.take 1) else none

/-- The decode loop over the remaining codes (lines 304–318): emit the
entry, register `w + entry.charAt(0)` under the next code, advance.  `none`
aborts the whole call with the invalid-code error. -/
def lzwDecodeLoop (dict : List (ℚ × List Char)) (w : List Char) (dictSize : Nat) :
    List ℚ → Option (List Char)
  | [] => some []
  | k :: rest =>
    match lzwEntry dict w dictSize k with
    | none => none
    | some entry =>
      (lzwDecodeLoop (dict ++ [((dictSize : ℚ), w ++ entry.take 1)]) entry (dictSize + 1)
        rest).map fun out => entry ++ out

/-- The `FormatError` text of `lzw.decode` (line 293). -/
def lzwFormatErrMsg : List Char :=
  "形式エラー: カンマ区切りの数値（例: 65,66,256）を入力してください".data

/-- The `InvalidCodeError` text of `lzw.decode` (line 312). -/
def lzwInvalidErrMsg : List Char := "復元エラー: 無効な辞書コードが含まれています".data

/-- `lzw.decode` (lines 290–320). -/
def lzwDecode (text : List Char) : List Char :=
  if text = [] then []
  else
    let compressed := (splitComma text).map jsNumber
    if compressed.any Option.isNone then lzwFormatErrMsg
    else
      match compressed.map fun o => o.getD 0 with
      | [] => []
      | k0 :: ks =>
        match lzwDecodeLoop lzwSeedD [fromCharCodeQ k0] 256 ks with
        | some out => [fromCharCodeQ k0] ++ out
        | none => lzwInvalidErrMsg

/-! ### LZW: dictionary and parse-layer facts -/

/-! ## Theorems -/

theorem digitChar_spec : ∀ d, d < 10 →
    (Nat.digitChar d).isDigit = true ∧ charVal (Nat.digitChar d) = d := by decide

theorem valLE_decDigitsAux : ∀ fuel n, n ≤ fuel → valLE (decDigitsAux fuel n) = n := by
  intro fuel
  induction fuel with
  | zero =>
    intro n h
    interval_cases n
    rfl
  | succ f ih =>
    intro n h
    by_cases hn : n = 0
    · simp [decDigitsAux, hn, valLE]
    · have hdiv : n / 10 ≤ f := by
        have : n / 10 < n := Nat.div_lt_self (Nat.pos_of_ne_zero hn) (by norm_num)
        omega
      have hmod := (digitChar_spec (n % 10) (Nat.mod_lt n (by norm_num))).2
      simp only [decDigitsAux, hn, if_false, valLE, hmod, ih _ hdiv]
      omega

theorem decDigitsAux_isDigit : ∀ fuel n c, c ∈ decDigitsAux fuel n → c.isDigit = true := by
  intro fuel
  induction fuel with
  | zero => intro n c h; simp [decDigitsAux] at h
  | succ f ih =>
    intro n c h
    by_cases hn : n = 0
    · simp [decDigitsAux, hn] at h
    · simp only [decDigitsAux, hn, if_false, List.mem_cons] at h
      rcases h with h | h
      · exact h ▸ (digitChar_spec (n % 10) (Nat.mod_lt n (by omega))).1
      · exact ih _ _ h

theorem decDigitsAux_ne_nil (n : Nat) (h : 0 < n) : decDigitsAux n n ≠ [] := by
  cases n with
  | zero => omega
  | succ m => simp [decDigitsAux]

theorem natToChars_ne_nil (n : Nat) : natToChars n ≠ [] := by
  unfold natToChars
  by_cases h : n = 0
  · simp [h]
  · simp only [h, if_false, ne_eq, List.reverse_eq_nil_iff]
    exact decDigitsAux_ne_nil n (by omega)

theorem natToChars_isDigit (n : Nat) : ∀ c ∈ natToChars n, c.isDigit = true := by
  intro c hc
  unfold natToChars at hc
  by_cases h : n = 0
  · simp [h] at hc
    subst hc; decide
  · simp only [h, if_false, List.mem_reverse] at hc
    exact decDigitsAux_isDigit n n c hc

theorem foldl_reverse_valLE (ds : List Char) :
    ∀ a, List.foldl (fun a c => a * 10 + charVal c) a ds.reverse =
      a * 10 ^ ds.length + valLE ds := by
  induction ds with
  | nil => intro a; simp [valLE]
  | cons d ds ih =>
    intro a
    simp only [List.reverse_cons, List.foldl_append, List.foldl_cons, List.foldl_nil, ih,
      List.length_cons, valLE]
    ring

theorem parseDigits_natToChars (n : Nat) : parseDigits (natToChars n) = n := by
  unfold natToChars
  by_cases h : n = 0
  · simp [h]; decide
  · simp only [h, if_false, parseDigits, foldl_reverse_valLE,
      valLE_decDigitsAux n n le_rfl, Nat.zero_mul, Nat.zero_add]

theorem charUnits_bmp (c : Char) (h : c.toNat < 65536) : charUnits c = [c.toNat] := by
  simp [charUnits, h]

theorem textUnits_bmp (s : List Char) (h : ∀ c ∈ s, c.toNat < 65536) :
    textUnits s = s.map Char.toNat := by
  induction s with
  | nil => rfl
  | cons c cs ih =>
    simp only [textUnits, List.map_cons, List.flatten_cons,
      charUnits_bmp c (h c (List.mem_cons_self c cs))]
    simp only [textUnits] at ih
    simp [ih fun x hx => h x (List.mem_cons_of_mem c hx)]

theorem rleDecodeAux_nil : ∀ fuel, rleDecodeAux fuel [] = [] := by
  intro fuel; cases fuel <;> rfl

theorem rleEncodeAux_zero (l : List Char) : rleEncodeAux 0 l = [] := by
  cases l <;> rfl

theorem rleEncodeAux_nil (fuel : Nat) : rleEncodeAux fuel [] = [] := by
  cases fuel <;> rfl

theorem rleEncodeAux_cons (fuel : Nat) (c : Char) (rest : List Char) :
    rleEncodeAux (fuel + 1) (c :: rest) =
      c :: natToChars (runLen c rest + 1) ++ rleEncodeAux fuel (rest.drop (runLen c rest)) :=
  rfl

theorem rleDecodeAux_cons (fuel : Nat) (c : Char) (rest : List Char) :
    rleDecodeAux (fuel + 1) (c :: rest) =
      if c.isDigit then rleDecodeAux fuel rest
      else
        if rest.takeWhile Char.isDigit = [] then rleDecodeAux fuel rest
        else
          List.replicate (parseDigits (rest.takeWhile Char.isDigit)) c ++
            rleDecodeAux fuel (rest.dropWhile Char.isDigit) :=
  rfl

theorem runLen_le (c : Char) : ∀ l, runLen c l ≤ l.length := by
  intro l
  induction l with
  | nil => simp [runLen]
  | cons x xs ih =>
    simp only [runLen, List.length_cons]
    split <;> omega

theorem runLen_take (c : Char) : ∀ l, l.take (runLen c l) = List.replicate (runLen c l) c := by
  intro l
  induction l with
  | nil => simp [runLen]
  | cons x xs ih =>
    simp only [runLen]
    split
    · next hx => simp [List.take_succ_cons, List.replicate_succ, hx, ih]
    · simp

/-- Splitting `takeWhile`/`dropWhile` over a concatenation whose first part
satisfies the predicate everywhere and whose second part starts with a
failing element (or is empty). -/
theorem takeWhile_dropWhile_append (p : Char → Bool) :
    ∀ l1 l2, (∀ c ∈ l1, p c = true) →
      (l2 = [] ∨ ∃ c t, l2 = c :: t ∧ p c = false) →
      (l1 ++ l2).takeWhile p = l1 ∧ (l1 ++ l2).dropWhile p = l2 := by
  intro l1
  induction l1 with
  | nil =>
    intro l2 _ h2
    rcases h2 with h2 | ⟨c, t, h2, hc⟩
    · simp [h2]
    · subst h2; simp [List.takeWhile, List.dropWhile, hc]
  | cons a l1 ih =>
    intro l2 h1 h2
    have ha : p a = true := h1 a (List.mem_cons_self a l1)
    have := ih l2 (fun c hc => h1 c (List.mem_cons_of_mem a hc)) h2
    simp [List.takeWhile, List.dropWhile, ha, this.1, this.2]

/-- The first character emitted by `rleEncodeAux` on a digit-free text is a
character of that text, hence not a digit. -/
theorem rleEncodeAux_head (fuel : Nat) (l : List Char) (h : ∀ c ∈ l, c.isDigit = false) :
    rleEncodeAux fuel l = [] ∨
      ∃ c t, rleEncodeAux fuel l = c :: t ∧ c.isDigit = false := by
  cases fuel with
  | zero => exact Or.inl (rleEncodeAux_zero l)
  | succ f =>
    cases l with
    | nil => exact Or.inl (rleEncodeAux_nil _)
    | cons c rest =>
      exact Or.inr ⟨c, _, rleEncodeAux_cons f c rest, h c (List.mem_cons_self c rest)⟩

/-- Round-trip of the two fueled loops: decoding an encoding of a digit-free
text with any sufficient fuel recovers the text. -/
theorem rle_roundtrip_aux :
    ∀ fe s, s.length ≤ fe → (∀ c ∈ s, c.isDigit = false) →
      ∀ fd, (rleEncodeAux fe s).length ≤ fd →
        rleDecodeAux fd (rleEncodeAux fe s) = s := by
  intro fe
  induction fe with
  | zero =>
    intro s hs _ fd _
    have : s = [] := List.eq_nil_of_length_eq_zero (by omega)
    subst this
    simp [rleEncodeAux_nil, rleDecodeAux_nil]
  | succ f ih =>
    intro s hs hdig fd hfd
    cases s with
    | nil => simp [rleEncodeAux_nil, rleDecodeAux_nil]
    | cons c rest =>
      rw [rleEncodeAux_cons] at hfd ⊢
      set n := runLen c rest with hn
      have hcd : c.isDigit = false := hdig c (List.mem_cons_self c rest)
      have hrest' : ∀ x ∈ rest.drop n, x.isDigit = false := fun x hx =>
        hdig x (List.mem_cons_of_mem c (List.mem_of_mem_drop hx))
      have hlen' : (rest.drop n).length ≤ f := by
        have := List.length_drop n rest
        simp only [List.length_cons] at hs
        omega
      -- split the digit block from the tail encoding
      have hsplit := takeWhile_dropWhile_append Char.isDigit (natToChars (n + 1))
        (rleEncodeAux f (rest.drop n)) (natToChars_isDigit (n + 1))
        (by
          rcases rleEncodeAux_head f (rest.drop n) hrest' with h | ⟨c', t, h, hc'⟩
          · exact Or.inl h
          · exact Or.inr ⟨c', t, h, hc'⟩)
      cases fd with
      | zero =>
        exact absurd hfd (by simp)
      | succ fd' =>
        rw [List.cons_append, rleDecodeAux_cons, hcd]
        simp only [Bool.false_eq_true, if_false, hsplit.1, hsplit.2,
          natToChars_ne_nil (n + 1), if_false, parseDigits_natToChars]
        have hfd' : (rleEncodeAux f (rest.drop n)).length ≤ fd' := by
          simp only [List.cons_append, List.length_cons, List.length_append] at hfd
          omega
        rw [ih (rest.drop n) hlen' hrest' fd' hfd']
        have hrep : List.replicate n c ++ rest.drop n = rest := by
          rw [← runLen_take c rest, ← hn, List.take_append_drop]
        calc List.replicate (n + 1) c ++ rest.drop n
            = c :: (List.replicate n c ++ rest.drop n) := by
              simp [List.replicate_succ]
          _ = c :: rest := by rw [hrep]

/-- C3 (RLE round-trip): decoding the encoder's output over a digit-free
alphabet returns the input. -/
theorem rle_roundtrip (s : List Char) (h : ∀ c ∈ s, c.isDigit = false) :
    rleDecode (rleEncode s).encoded = s := by
  by_cases hs : s = []
  · subst hs; rfl
  · simp only [rleEncode, hs, if_false]
    exact rle_roundtrip_aux s.length s le_rfl h _ le_rfl

theorem charToNat_inj {c d : Char} (h : c.toNat = d.toNat) : c = d := by
  rw [← Char.ofNat_toNat c, h, Char.ofNat_toNat]

theorem mem_distinctsAux : ∀ (l seen : List Char) (c : Char),
    c ∈ distinctsAux seen l ↔ c ∈ l ∧ c ∉ seen := by
  intro l
  induction l with
  | nil => intro seen c; simp [distinctsAux]
  | cons a rest ih =>
    intro seen c
    by_cases ha : a ∈ seen
    · rw [distinctsAux, if_pos ha, ih]
      constructor
      · exact fun ⟨h1, h2⟩ => ⟨List.mem_cons_of_mem a h1, h2⟩
      · rintro ⟨h1, h2⟩
        rcases List.mem_cons.mp h1 with h1 | h1
        · exact absurd (h1 ▸ ha) h2
        · exact ⟨h1, h2⟩
    · rw [distinctsAux, if_neg ha]
      simp only [List.mem_cons, ih, List.mem_cons]
      constructor
      · rintro (rfl | ⟨h1, h2⟩)
        · exact ⟨Or.inl rfl, ha⟩
        · exact ⟨Or.inr h1, fun hc => h2 (Or.inr hc)⟩
      · rintro ⟨h1, h2⟩
        rcases h1 with rfl | h1
        · exact Or.inl rfl
        · by_cases hca : c = a
          · exact Or.inl hca
          · exact Or.inr ⟨h1, fun hc => h2 (hc.resolve_left hca)⟩

theorem nodup_distinctsAux : ∀ (l seen : List Char), (distinctsAux seen l).Nodup := by
  intro l
  induction l with
  | nil => intro seen; simp [distinctsAux]
  | cons a rest ih =>
    intro seen
    by_cases ha : a ∈ seen
    · rw [distinctsAux, if_pos ha]; exact ih seen
    · rw [distinctsAux, if_neg ha]
      refine List.nodup_cons.mpr ⟨?_, ih (a :: seen)⟩
      intro hmem
      exact ((mem_distinctsAux rest (a :: seen) a).mp hmem).2 (List.mem_cons_self a seen)

theorem mem_distincts {s : List Char} {c : Char} : c ∈ distincts s ↔ c ∈ s := by
  rw [distincts, mem_distinctsAux]
  simp

theorem nodup_distincts (s : List Char) : (distincts s).Nodup := nodup_distinctsAux s []

theorem objKeys_perm (l : List Char) : (objKeys l).Perm l :=
  (List.Perm.append (List.perm_insertionSort _ _) (List.Perm.refl _)).trans
    (List.filter_append_perm _ l)

theorem flatLeaf_append (q1 q2 : List HTree) :
    flatLeaf (q1 ++ q2) = flatLeaf q1 ++ flatLeaf q2 := by
  simp [flatLeaf]

theorem leafChars_ne_nil : ∀ t : HTree, leafChars t ≠ [] := by
  intro t
  induction t with
  | leaf c f => simp [leafChars]
  | node f l r ihl ihr =>
    simp only [leafChars, ne_eq, List.append_eq_nil]
    rintro ⟨h, -⟩
    exact ihl h

theorem hsort_perm (q : List HTree) : (hsort q).Perm q := List.perm_insertionSort _ q

theorem hsort_length (q : List HTree) : (hsort q).length = q.length :=
  (hsort_perm q).length_eq

theorem huffStep_flatLeaf (q : List HTree) : (flatLeaf (huffStep q)).Perm (flatLeaf q) := by
  have hperm : (flatLeaf (hsort q)).Perm (flatLeaf q) :=
    List.Perm.flatten (List.Perm.map _ (hsort_perm q))
  unfold huffStep
  cases h : hsort q with
  | nil => rw [h] at hperm; exact hperm
  | cons a t =>
    cases t with
    | nil => rw [h] at hperm; exact hperm
    | cons b rest =>
      rw [h] at hperm
      refine List.Perm.trans ?_ hperm
      simp only [flatLeaf, List.map_append, List.map_cons, List.map_nil, List.flatten_append,
        List.flatten_cons, List.flatten_nil, leafChars, List.append_nil]
      calc ((rest.map leafChars).flatten ++ (leafChars a ++ leafChars b)).Perm
            ((leafChars a ++ leafChars b) ++ (rest.map leafChars).flatten) :=
            List.perm_append_comm
        _ = leafChars a ++ (leafChars b ++ (rest.map leafChars).flatten) := by
            rw [List.append_assoc]

theorem huffLoop_succ (f : Nat) (q : List HTree) :
    huffLoop (f + 1) q = if q.length ≤ 1 then q else huffLoop f (huffStep q) := rfl

theorem huffStep_length (q : List HTree) (h : 2 ≤ q.length) :
    (huffStep q).length = q.length - 1 := by
  unfold huffStep
  cases hq : hsort q with
  | nil => have := hsort_length q; rw [hq] at this; simp at this; omega
  | cons a t =>
    cases t with
    | nil => have := hsort_length q; rw [hq] at this; simp at this; omega
    | cons b rest =>
      have := hsort_length q
      rw [hq] at this
      simp only [List.length_cons] at this
      simp only [List.length_append, List.length_cons, List.length_nil]
      omega

theorem huffLoop_length : ∀ (fuel : Nat) (q : List HTree), q.length ≤ fuel + 1 →
    (huffLoop fuel q).length ≤ 1 := by
  intro fuel
  induction fuel with
  | zero => intro q h; simpa [huffLoop] using h
  | succ f ih =>
    intro q h
    rw [huffLoop_succ]
    split
    · next hle => exact hle
    · next hgt =>
      push_neg at hgt
      apply ih
      rw [huffStep_length q (by omega)]
      omega

theorem huffLoop_flatLeaf : ∀ (fuel : Nat) (q : List HTree),
    (flatLeaf (huffLoop fuel q)).Perm (flatLeaf q) := by
  intro fuel
  induction fuel with
  | zero => intro q; exact List.Perm.refl _
  | succ f ih =>
    intro q
    rw [huffLoop_succ]
    split
    · exact List.Perm.refl _
    · exact (ih (huffStep q)).trans (huffStep_flatLeaf q)

theorem buildTree_some (q : List HTree) (hq : q ≠ []) :
    ∃ t, buildTree q = some t ∧ (leafChars t).Perm (flatLeaf q) := by
  have hlen : (huffLoop q.length q).length ≤ 1 := huffLoop_length q.length q (by omega)
  have hperm := huffLoop_flatLeaf q.length q
  have hfl : flatLeaf q ≠ [] := by
    cases q with
    | nil => exact absurd rfl hq
    | cons t ts =>
      simp only [flatLeaf, List.map_cons, List.flatten_cons, ne_eq, List.append_eq_nil]
      rintro ⟨h, -⟩
      exact leafChars_ne_nil t h
  have hne : huffLoop q.length q ≠ [] := by
    intro h
    rw [h] at hperm
    simp only [flatLeaf, List.map_nil, List.flatten_nil] at hperm
    exact hfl (hperm.symm.eq_nil)
  obtain ⟨t, ht⟩ := List.length_eq_one.mp
    (Nat.le_antisymm hlen (List.length_pos.mpr hne))
  refine ⟨t, ?_, ?_⟩
  · rw [buildTree, ht]; rfl
  · rw [ht] at hperm
    simpa [flatLeaf] using hperm

theorem genCodes_fst : ∀ (t : HTree) (cur : List Char),
    (genCodes t cur).map Prod.fst = leafChars t := by
  intro t
  induction t with
  | leaf c f => intro cur; rfl
  | node f l r ihl ihr => intro cur; simp [genCodes, leafChars, ihl, ihr]

theorem genCodes_code_extends : ∀ (t : HTree) (cur : List Char) (e : Char × List Char),
    e ∈ genCodes t cur → cur <+: e.2 := by
  intro t
  induction t with
  | leaf c f =>
    intro cur e he
    simp only [genCodes, List.mem_singleton] at he
    subst he
    exact List.prefix_rfl
  | node f l r ihl ihr =>
    intro cur e he
    simp only [genCodes, List.mem_append] at he
    rcases he with he | he
    · exact (List.prefix_append cur ['0']).trans (ihl _ e he)
    · exact (List.prefix_append cur ['1']).trans (ihr _ e he)

/-- Two bit strings that extend the same stem by different bits are
incomparable under the prefix order. -/
theorem not_isPre_of_diverge (a : List Char) (b1 b2 : Char) (hb : b1 ≠ b2)
    {x y : List Char} (hx : a ++ [b1] <+: x) (hy : a ++ [b2] <+: y) : ¬ x <+: y := by
  intro hxy
  obtain ⟨u, hu⟩ := hx.trans hxy
  obtain ⟨v, hv⟩ := hy
  have h1 : y[a.length]? = some b1 := by
    rw [← hu, List.append_assoc, List.getElem?_append_right le_rfl]
    simp
  have h2 : y[a.length]? = some b2 := by
    rw [← hv, List.append_assoc, List.getElem?_append_right le_rfl]
    simp
  rw [h1] at h2
  exact hb (Option.some.inj h2)

theorem PFrel_symm : Symmetric PFrel := fun _ _ h => ⟨h.2, h.1⟩

theorem genCodes_pairwise : ∀ (t : HTree) (cur : List Char),
    (genCodes t cur).Pairwise PFrel := by
  intro t
  induction t with
  | leaf c f => intro cur; simp [genCodes]
  | node f l r ihl ihr =>
    intro cur
    simp only [genCodes]
    rw [List.pairwise_append]
    refine ⟨ihl _, ihr _, ?_⟩
    intro e1 he1 e2 he2
    have h1 := genCodes_code_extends l (cur ++ ['0']) e1 he1
    have h2 := genCodes_code_extends r (cur ++ ['1']) e2 he2
    exact ⟨not_isPre_of_diverge cur '0' '1' (by decide) h1 h2,
      not_isPre_of_diverge cur '1' '0' (by decide) h2 h1⟩

theorem huffCodes_pairwise (o : Option HTree) : (huffCodes o).Pairwise PFrel := by
  cases o with
  | none => simp [huffCodes]
  | some t =>
    cases t with
    | leaf c f => simp [huffCodes, genCodes]
    | node f l r => exact genCodes_pairwise _ _

theorem huffCodes_some_fst (t : HTree) :
    (huffCodes (some t)).map Prod.fst = leafChars t := by
  cases t with
  | leaf c f => rfl
  | node f l r => exact genCodes_fst _ _

theorem huffCodes_code_ne_nil (t : HTree) (e : Char × List Char)
    (he : e ∈ huffCodes (some t)) : e.2 ≠ [] := by
  cases t with
  | leaf c f =>
    simp only [huffCodes, genCodes, List.mem_singleton] at he
    subst he
    simp
  | node f l r =>
    simp only [huffCodes, genCodes, List.nil_append, List.mem_append] at he
    rcases he with he | he
    · have h := genCodes_code_extends l ['0'] e he
      intro hnil
      rw [hnil] at h
      simpa using h.length_le
    · have h := genCodes_code_extends r ['1'] e he
      intro hnil
      rw [hnil] at h
      simpa using h.length_le

/-- On a list with distinct keys, `find?` by the key of a member returns
exactly that member. -/
theorem find?_key_unique {α β : Type} [DecidableEq β] (key : α → β) (v : β) :
    ∀ (l : List α) (a : α), (l.map key).Nodup → a ∈ l → key a = v →
      l.find? (fun e => key e = v) = some a := by
  intro l
  induction l with
  | nil => intro a _ ha; simp at ha
  | cons x l ih =>
    intro a hnd ha hv
    simp only [List.map_cons, List.nodup_cons] at hnd
    by_cases hx : key x = v
    · have hxa : x = a := by
        rcases List.mem_cons.mp ha with h | h
        · exact h.symm
        · exact absurd (by rw [hx, ← hv]; exact List.mem_map_of_mem key h) hnd.1
      subst hxa
      exact List.find?_cons_of_pos _ (by simp [hx])
    · have ha' : a ∈ l := by
        rcases List.mem_cons.mp ha with h | h
        · exact absurd (h ▸ hv) hx
        · exact h
      rw [List.find?_cons_of_neg _ (by simp [hx])]
      exact ih a hnd.2 ha' hv

theorem table_snd_nodup (table : List (Char × List Char))
    (hpf : table.Pairwise PFrel) : (table.map Prod.snd).Nodup := by
  refine List.Pairwise.map _ ?_ hpf
  intro a b hab h
  exact hab.1 (h ▸ List.prefix_rfl)

theorem unitLookup_eq (table : List (Char × List Char)) (c : Char) (k : List Char)
    (hnd : (table.map Prod.fst).Nodup) (hm : (c, k) ∈ table) :
    unitLookup table c.toNat = some k := by
  have hnd2 : (table.map (fun e => e.1.toNat)).Nodup := by
    have hcomp : table.map (fun e : Char × List Char => e.1.toNat) =
        (table.map Prod.fst).map Char.toNat := by
      simp [List.map_map]
    rw [hcomp]
    exact hnd.map_on fun x _ y _ h => charToNat_inj h
  have h := find?_key_unique (fun e : Char × List Char => e.1.toNat) c.toNat
    table (c, k) hnd2 hm rfl
  have h' : table.find? (fun e => e.1.toNat = c.toNat) = some (c, k) := h
  unfold unitLookup
  rw [h']
  rfl

theorem revLookup_eq (table : List (Char × List Char)) (hpf : table.Pairwise PFrel)
    (c : Char) (k : List Char) (hm : (c, k) ∈ table) : revLookup table k = some c := by
  have hnd : (table.reverse.map Prod.snd).Nodup := by
    rw [List.map_reverse, List.nodup_reverse]
    exact table_snd_nodup table hpf
  have h := find?_key_unique (Prod.snd : Char × List Char → List Char) k
    table.reverse (c, k) hnd (List.mem_reverse.mpr hm) rfl
  have h' : table.reverse.find? (fun e => e.2 = k) = some (c, k) := h
  unfold revLookup
  rw [h']
  rfl

theorem revLookup_of_proper (table : List (Char × List Char)) (hpf : table.Pairwise PFrel)
    (c : Char) (k : List Char) (hm : (c, k) ∈ table) (x : List Char)
    (hx : x <+: k) (hxk : x ≠ k) : revLookup table x = none := by
  unfold revLookup
  rw [List.find?_eq_none.mpr]
  · rfl
  · intro e he
    simp only [decide_eq_true_eq]
    intro hex
    have he' : e ∈ table := List.mem_reverse.mp he
    by_cases hec : e = (c, k)
    · rw [hec] at hex
      exact hxk hex.symm
    · have hrel := List.Pairwise.forall PFrel_symm hpf he' hm hec
      exact hrel.1 (hex ▸ hx)

/-- Walking the decode loop through one full code of the table emits exactly
that code's character: no proper prefix of a code matches the table. -/
theorem hDecode_code_aux (table : List (Char × List Char)) (hpf : table.Pairwise PFrel)
    (c : Char) (k : List Char) (hm : (c, k) ∈ table) :
    ∀ (k2 cur : List Char), cur ++ k2 = k → k2 ≠ [] → ∀ rest,
      hDecodeLoop table cur (k2 ++ rest) = c :: hDecodeLoop table [] rest := by
  intro k2
  induction k2 with
  | nil => intro cur h hne rest; exact absurd rfl hne
  | cons b k2' ih =>
    intro cur hck _ rest
    cases k2' with
    | nil =>
      have hk : cur ++ [b] = k := by simpa using hck
      simp only [List.cons_append, List.nil_append, hDecodeLoop, hk,
        revLookup_eq table hpf c k hm]
      rfl
    | cons b2 t =>
      have hx : (cur ++ [b]) <+: k := by
        refine ⟨b2 :: t, ?_⟩
        rw [List.append_assoc]
        simpa using hck
      have hxk : cur ++ [b] ≠ k := by
        intro hcontra
        have hlen1 := congrArg List.length hck
        have hlen2 := congrArg List.length hcontra
        simp only [List.length_append, List.length_cons, List.length_nil] at hlen1 hlen2
        omega
      simp only [List.cons_append, hDecodeLoop,
        revLookup_of_proper table hpf c k hm (cur ++ [b]) hx hxk]
      exact ih (cur ++ [b]) (by rw [List.append_assoc]; simpa using hck) (by simp) rest

/-- Decoding the concatenation of the looked-up codes of a character sequence
recovers the sequence. -/
theorem hDecode_flatten (table : List (Char × List Char)) (hpf : table.Pairwise PFrel) :
    ∀ s : List Char,
      (∀ c ∈ s, ∃ k, (c, k) ∈ table ∧ unitLookup table c.toNat = some k ∧ k ≠ []) →
      hDecodeLoop table []
        ((s.map fun c => (unitLookup table c.toNat).getD "undefined".data).flatten) = s := by
  intro s
  induction s with
  | nil => intro _; rfl
  | cons c s' ih =>
    intro h
    obtain ⟨k, hm, hl, hk⟩ := h c (List.mem_cons_self c s')
    simp only [List.map_cons, List.flatten_cons, hl, Option.getD_some]
    rw [hDecode_code_aux table hpf c k hm k [] (by simp) hk]
    rw [ih fun x hx => h x (List.mem_cons_of_mem c hx)]

theorem flatLeaf_leaves (l : List Char) (f : Char → Nat) :
    flatLeaf (l.map fun c => HTree.leaf c (f c)) = l := by
  induction l with
  | nil => rfl
  | cons c cs ih =>
    simp only [flatLeaf, List.map_cons, List.flatten_cons, leafChars] at ih ⊢
    rw [ih]
    rfl

theorem initialQueue_ne_nil (s : List Char) (hs : s ≠ []) : initialQueue s ≠ [] := by
  cases s with
  | nil => exact absurd rfl hs
  | cons c rest =>
    have hc : c ∈ distincts (c :: rest) := mem_distincts.mpr (List.mem_cons_self c rest)
    have hk : c ∈ objKeys (distincts (c :: rest)) := ((objKeys_perm _).mem_iff).mpr hc
    intro h
    unfold initialQueue at h
    rw [List.map_eq_nil_iff] at h
    rw [h] at hk
    exact absurd hk (List.not_mem_nil c)

theorem flatLeaf_initialQueue (s : List Char) :
    flatLeaf (initialQueue s) = objKeys (distincts s) :=
  flatLeaf_leaves _ _

/-- The code table of a nonempty input is prefix-free, has distinct keys, and
covers every character of the input with a nonempty code reachable through
the code-unit lookup of the encode loop. -/
theorem huffTable_facts (s : List Char) (hs : s ≠ []) :
    (huffTable s).Pairwise PFrel ∧
    ((huffTable s).map Prod.fst).Nodup ∧
    (∀ c ∈ s, ∃ k, (c, k) ∈ huffTable s ∧
      unitLookup (huffTable s) c.toNat = some k ∧ k ≠ []) := by
  obtain ⟨root, hroot, hleaf⟩ := buildTree_some (initialQueue s) (initialQueue_ne_nil s hs)
  have htab : huffTable s = huffCodes (some root) := by
    unfold huffTable
    rw [hroot]
  rw [flatLeaf_initialQueue] at hleaf
  have hkeys : (huffTable s).map Prod.fst = leafChars root := by
    rw [htab, huffCodes_some_fst]
  have hknodup : ((huffTable s).map Prod.fst).Nodup := by
    rw [hkeys]
    exact hleaf.symm.nodup ((objKeys_perm _).symm.nodup (nodup_distincts s))
  refine ⟨htab ▸ huffCodes_pairwise (some root), hknodup, ?_⟩
  intro c hc
  have hcl : c ∈ leafChars root :=
    hleaf.mem_iff.mpr (((objKeys_perm _).mem_iff).mpr (mem_distincts.mpr hc))
  have hcm : c ∈ (huffTable s).map Prod.fst := by
    rw [hkeys]; exact hcl
  obtain ⟨e, he, hec⟩ := List.mem_map.mp hcm
  have hme : (c, e.2) ∈ huffTable s := by
    have heq : e = (c, e.2) := by
      cases e
      simp only [Prod.fst] at hec
      rw [hec]
    rw [← heq]
    exact he
  refine ⟨e.2, hme, unitLookup_eq _ c e.2 hknodup hme, ?_⟩
  rw [htab] at hme
  exact huffCodes_code_ne_nil root (c, e.2) hme

/-- Unfolding `huffman.encode` on nonempty input. -/
theorem huffmanEncode_nonempty (s : List Char) (hs : s ≠ []) :
    (huffmanEncode s).encoded =
      ((textUnits s).map fun u => (unitLookup (huffTable s) u).getD "undefined".data).flatten ∧
    (huffmanEncode s).map = huffTable s := by
  rw [huffmanEncode, if_neg hs]
  exact ⟨rfl, rfl⟩

/-- C1 (amended): for every non-empty input all of whose code points lie in
the Basic Multilingual Plane, `huffman.decode` applied to the encoded bit
string and the code table of the same `huffman.encode` call returns the
input.  (The BMP restriction is forced: see
`huffman_roundtrip_fails_on_astral`.) -/
theorem huffman_roundtrip_bmp (s : List Char) (hs : s ≠ [])
    (hbmp : ∀ c ∈ s, c.toNat < 65536) :
    huffmanDecode (huffmanEncode s).encoded (some (huffmanEncode s).map) = s := by
  obtain ⟨henc, hmap⟩ := huffmanEncode_nonempty s hs
  obtain ⟨hpf, hknodup, hlook⟩ := huffTable_facts s hs
  rw [henc, hmap, textUnits_bmp s hbmp, List.map_map]
  show huffmanDecode
    ((s.map fun c => (unitLookup (huffTable s) c.toNat).getD "undefined".data).flatten)
    (some (huffTable s)) = s
  have hne :
      (s.map fun c => (unitLookup (huffTable s) c.toNat).getD "undefined".data).flatten ≠ [] := by
    cases s with
    | nil => exact absurd rfl hs
    | cons c s' =>
      obtain ⟨k, _, hl, hk⟩ := hlook c (List.mem_cons_self c s')
      simp only [List.map_cons, List.flatten_cons, hl, Option.getD_some]
      intro hcontra
      rcases List.append_eq_nil.mp hcontra with ⟨h1, -⟩
      exact hk h1
  unfold huffmanDecode
  rw [if_neg (by simp [hne]), Option.getD_some]
  exact hDecode_flatten (huffTable s) hpf s hlook

/-- C1 witness: the amended round-trip at the concrete BMP input "AB". -/
theorem huffman_roundtrip_bmp_witness :
    ("AB".data ≠ [] ∧ ∀ c ∈ "AB".data, c.toNat < 65536) ∧
      huffmanDecode (huffmanEncode "AB".data).encoded (some (huffmanEncode "AB".data).map) =
        "AB".data :=
  ⟨⟨by decide, by decide⟩, huffman_roundtrip_bmp "AB".data (by decide) (by decide)⟩

/-- C1 counterexample: on the single astral character U+1D11E the frequency
pass keys the table by the code point, but the encode loop looks it up one
UTF-16 code unit at a time; both lookups miss, the encoded output is the
literal text "undefinedundefined", and decoding it returns the empty string,
not the input.  So the round-trip fails for an input that is non-empty. -/
theorem huffman_roundtrip_fails_on_astral :
    huffmanDecode (huffmanEncode [Char.ofNat 119070]).encoded
      (some (huffmanEncode [Char.ofNat 119070]).map) ≠ [Char.ofNat 119070] := by
  decide

/-- C4: in the code table that `huffman.encode` produces for a non-empty
input, the codes of two distinct symbols are never in the prefix relation. -/
theorem huffman_prefix_free (s : List Char) (hs : s ≠ []) :
    ∀ e1 ∈ (huffmanEncode s).map, ∀ e2 ∈ (huffmanEncode s).map,
      e1.1 ≠ e2.1 → ¬ e1.2 <+: e2.2 := by
  intro e1 he1 e2 he2 hne
  rw [(huffmanEncode_nonempty s hs).2] at he1 he2
  have hrel : PFrel e1 e2 :=
    List.Pairwise.forall PFrel_symm (huffTable_facts s hs).1 he1 he2
      fun h => hne (congrArg Prod.fst h)
  exact hrel.1

/-- C4 witness: the table for "AAB" maps B to "0" and A to "1"; the theorem
yields their incomparability. -/
theorem huffman_prefix_free_witness :
    ("AAB".data ≠ [] ∧ ('B', ['0']) ∈ (huffmanEncode "AAB".data).map ∧
        ('A', ['1']) ∈ (huffmanEncode "AAB".data).map ∧ ('B', ['0']).1 ≠ ('A', ['1']).1) ∧
      ¬ ('B', ['0']).2 <+: ('A', ['1']).2 :=
  ⟨⟨by decide, by decide, by decide, by decide⟩,
    huffman_prefix_free "AAB".data (by decide) ('B', ['0']) (by decide) ('A', ['1'])
      (by decide) (by decide)⟩

theorem distinctsAux_of_seen : ∀ (l seen : List Char), (∀ c ∈ l, c ∈ seen) →
    distinctsAux seen l = [] := by
  intro l
  induction l with
  | nil => intro seen _; rfl
  | cons c rest ih =>
    intro seen h
    rw [distinctsAux, if_pos (h c (List.mem_cons_self c rest))]
    exact ih seen fun x hx => h x (List.mem_cons_of_mem c hx)

theorem distincts_const (a : Char) : ∀ s : List Char, s ≠ [] → (∀ c ∈ s, c = a) →
    distincts s = [a] := by
  intro s hs hall
  cases s with
  | nil => exact absurd rfl hs
  | cons c rest =>
    have hca : c = a := hall c (List.mem_cons_self c rest)
    subst hca
    rw [distincts, distinctsAux, if_neg (List.not_mem_nil c)]
    rw [distinctsAux_of_seen rest [c] fun x hx =>
      (hall x (List.mem_cons_of_mem c hx)) ▸ List.mem_cons_self c []]

theorem objKeys_singleton (a : Char) : objKeys [a] = [a] := by
  by_cases h : a.isDigit <;>
    simp [objKeys, List.filter, h, List.insertionSort, List.orderedInsert]

/-- C5: when the input consists of a single distinct symbol, the code table
maps that symbol to the one-bit code "0"; in particular encoding "AAAA"
yields the table A ↦ "0" and the bit string "0000". -/
theorem huffman_single_symbol (s : List Char) (a : Char) (hs : s ≠ [])
    (hall : ∀ c ∈ s, c = a) :
    (huffmanEncode s).map = [(a, ['0'])] ∧
      (huffmanEncode "AAAA".data).map = [('A', ['0'])] ∧
      (huffmanEncode "AAAA".data).encoded = "0000".data := by
  refine ⟨?_, by decide, by decide⟩
  rw [(huffmanEncode_nonempty s hs).2]
  unfold huffTable initialQueue
  rw [distincts_const a s hs hall, objKeys_singleton]
  rfl

/-- C5 witness: the single-symbol case at "AAAA". -/
theorem huffman_single_symbol_witness :
    ("AAAA".data ≠ [] ∧ ∀ c ∈ "AAAA".data, c = 'A') ∧
      ((huffmanEncode "AAAA".data).map = [('A', ['0'])] ∧
        (huffmanEncode "AAAA".data).map = [('A', ['0'])] ∧
        (huffmanEncode "AAAA".data).encoded = "0000".data) :=
  ⟨⟨by decide, by decide⟩, huffman_single_symbol "AAAA".data 'A' (by decide) (by decide)⟩

/-- C7: whenever the bit string is empty or the dictionary argument is
absent, `huffman.decode` returns the missing-dictionary error text as an
ordinary value (the embedding is a total function: nothing is thrown). -/
theorem huffman_decode_missing_dictionary (bits : List Char)
    (table : Option (List (Char × List Char))) (h : bits = [] ∨ table = none) :
    huffmanDecode bits table = missingDictMsg := by
  unfold huffmanDecode
  rw [if_pos h]

/-- C7 witness: `decode("0101", null)`. -/
theorem huffman_decode_missing_dictionary_witness :
    ("0101".data = [] ∨ (none : Option (List (Char × List Char))) = none) ∧
      huffmanDecode "0101".data none = missingDictMsg :=
  ⟨Or.inr rfl, huffman_decode_missing_dictionary "0101".data none (Or.inr rfl)⟩

/-- C3 witness: the RLE round-trip at the digit-free input "AAB". -/
theorem rle_roundtrip_witness :
    (∀ c ∈ "AAB".data, c.isDigit = false) ∧
      rleDecode (rleEncode "AAB".data).encoded = "AAB".data :=
  ⟨by decide, rle_roundtrip "AAB".data (by decide)⟩

/-- C6: `lzw.encode("AAAA")` emits exactly the codes 65 ("A"), 256 (the
entry registered for "AA"), 65 (the remaining "A"), and joins them with
commas into the encoded output. -/
theorem lzw_encode_aaaa_trace :
    lzwEncodeLoop lzwSeedE [] 256 "AAAA".data = [some 65, some 256, some 65] ∧
      (lzwEncode "AAAA".data).encoded = "65,256,65".data := by decide

/-- C8 counterexample: "65,,65" is not a well-formed comma-separated integer
sequence (its middle token is empty), yet `lzw.decode` does not return the
format error: `Number("")` is 0, not NaN, so the input decodes to the string
"A\u0000A". -/
theorem lzw_decode_empty_token_not_rejected :
    lzwDecode "65,,65".data = ['A', Char.ofNat 0, 'A'] ∧
      lzwDecode "65,,65".data ≠ lzwFormatErrMsg := by decide

/-- C8 (amended): `lzw.decode` returns the format-error message exactly for
tokens that are NaN under JavaScript `Number`; a token that parses as a
number without being an integer numeral (an empty token counts as 0) is not
rejected by this check.  Stated here: any NaN token in a nonempty input
forces the format error before decoding is attempted. -/
theorem lzw_decode_nan_token (text : List Char) (hne : text ≠ [])
    (h : ∃ tok ∈ splitComma text, jsNumber tok = none) :
    lzwDecode text = lzwFormatErrMsg := by
  obtain ⟨tok, htok, hnone⟩ := h
  have hcond : ((splitComma text).map jsNumber).any Option.isNone = true := by
    rw [List.any_eq_true]
    exact ⟨jsNumber tok, List.mem_map_of_mem jsNumber htok, by rw [hnone]; rfl⟩
  unfold lzwDecode
  rw [if_neg hne]
  show (if ((splitComma text).map jsNumber).any Option.isNone then lzwFormatErrMsg else _) =
    lzwFormatErrMsg
  rw [if_pos hcond]

/-- C8 witness: the single token "a" is NaN, so decoding "a" reports the
format error. -/
theorem lzw_decode_nan_token_witness :
    ("a".data ≠ [] ∧ ∃ tok ∈ splitComma "a".data, jsNumber tok = none) ∧
      lzwDecode "a".data = lzwFormatErrMsg :=
  ⟨⟨by decide, ⟨['a'], by decide, by decide⟩⟩,
    lzw_decode_nan_token "a".data (by decide) ⟨['a'], by decide, by decide⟩⟩

/-- C9: on "AAAAABBBCCCCC" (13 characters) RLE encodes to "A5B3C5"
(6 characters out of 13), and the Huffman and LZW encodings are both
strictly shorter than 13 * 8 = 104 bits (21 and 96 bits respectively). -/
theorem comparison_scenario :
    (rleEncode "AAAAABBBCCCCC".data).encoded = "A5B3C5".data ∧
      (rleEncode "AAAAABBBCCCCC".data).encodedLength = 6 ∧
      (rleEncode "AAAAABBBCCCCC".data).originalLength = 13 ∧
      (huffmanEncode "AAAAABBBCCCCC".data).encodedLength < 104 ∧
      (lzwEncode "AAAAABBBCCCCC".data).encodedLength < 104 := by decide

/-- C10: on empty input both `huffman.encode` and `lzw.encode` return the
guard object with empty encoded output and ratio 0 (no division by the zero
original length happens). -/
theorem empty_input_guard :
    (huffmanEncode []).encoded = [] ∧ (huffmanEncode []).ratio = 0 ∧
      (lzwEncode []).encoded = [] ∧ (lzwEncode []).ratio = 0 :=
  ⟨rfl, rfl, rfl, rfl⟩

set_option maxRecDepth 4000 in
theorem charOfNat_toNat256 : ∀ i, i < 256 → (Char.ofNat i).toNat = i := by decide

theorem lzwSeedE_mem (c : Char) (h : c.toNat < 256) : ([c], c.toNat) ∈ lzwSeedE := by
  unfold lzwSeedE
  refine List.mem_map.mpr ⟨c.toNat, List.mem_range.mpr h, ?_⟩
  rw [Char.ofNat_toNat]

theorem lzwSeedE_fst_nodup : (lzwSeedE.map Prod.fst).Nodup := by
  unfold lzwSeedE
  rw [List.map_map]
  refine List.Nodup.map_on ?_ (List.nodup_range 256)
  intro i hi j hj hij
  have hchar : Char.ofNat i = Char.ofNat j := by
    have := congrArg (fun l : List Char => l.headI) hij
    simpa using this
  have hi' := charOfNat_toNat256 i (List.mem_range.mp hi)
  have hj' := charOfNat_toNat256 j (List.mem_range.mp hj)
  rw [← hi', ← hj', hchar]

theorem lzwSeedE_key_len : ∀ e ∈ lzwSeedE, e.1.length = 1 := by
  intro e he
  obtain ⟨i, -, rfl⟩ := List.mem_map.mp he
  rfl

theorem lzwLookS_eq (dict : List (List Char × Nat)) (w : List Char) (n : Nat)
    (hnd : (dict.map Prod.fst).Nodup) (hm : (w, n) ∈ dict) : lzwLookS dict w = some n := by
  have h := find?_key_unique (Prod.fst : List Char × Nat → List Char) w dict (w, n) hnd hm rfl
  have h' : dict.find? (fun e => e.1 = w) = some (w, n) := h
  unfold lzwLookS
  rw [h']
  rfl

theorem lzwLookS_none (dict : List (List Char × Nat)) (w : List Char)
    (h : w ∉ dict.map Prod.fst) : lzwLookS dict w = none := by
  unfold lzwLookS
  rw [List.find?_eq_none.mpr]
  · rfl
  · intro e he
    simp only [decide_eq_true_eq]
    intro hew
    exact h (hew ▸ List.mem_map_of_mem Prod.fst he)

theorem lzwLookS_isSome_mem (dict : List (List Char × Nat)) (w : List Char)
    (h : (lzwLookS dict w).isSome = true) : w ∈ dict.map Prod.fst := by
  unfold lzwLookS at h
  cases hf : dict.find? fun e => e.1 = w with
  | none => rw [hf] at h; simp at h
  | some e =>
    have he := List.mem_of_find?_eq_some hf
    have hp := List.find?_some hf
    simp only [decide_eq_true_eq] at hp
    exact hp ▸ List.mem_map_of_mem Prod.fst he

theorem fromCharCodeQ_natCast (n : Nat) (h : n < 65536) :
    fromCharCodeQ ((n : Nat) : ℚ) = Char.ofNat n := by
  unfold fromCharCodeQ
  rw [Rat.num_natCast, Rat.den_natCast, Nat.cast_one, Int.tdiv_one,
    Int.emod_eq_of_lt (by positivity) (by exact_mod_cast h), Int.toNat_natCast]

theorem splitComma_no_comma : ∀ (t : List Char), ',' ∉ t → splitComma t = [t] := by
  intro t
  induction t with
  | nil => intro _; rfl
  | cons c t' ih =>
    intro h
    have hc : ¬ c = ',' := fun hc => h (hc ▸ List.mem_cons_self c t')
    rw [splitComma, if_neg hc, ih fun hm => h (List.mem_cons_of_mem c hm)]

theorem splitComma_append_comma : ∀ (t r : List Char), ',' ∉ t →
    splitComma (t ++ ',' :: r) = t :: splitComma r := by
  intro t
  induction t with
  | nil => intro r _; simp [splitComma]
  | cons c t' ih =>
    intro r h
    have hc : ¬ c = ',' := fun hc => h (hc ▸ List.mem_cons_self c t')
    rw [List.cons_append, splitComma, if_neg hc,
      ih r fun hm => h (List.mem_cons_of_mem c hm)]

theorem splitComma_join : ∀ (ts : List (List Char)), ts ≠ [] → (∀ t ∈ ts, ',' ∉ t) →
    splitComma (joinComma ts) = ts := by
  intro ts
  induction ts with
  | nil => intro h _; exact absurd rfl h
  | cons t ts' ih =>
    intro _ hall
    cases ts' with
    | nil => exact splitComma_no_comma t (hall t (List.mem_cons_self t []))
    | cons t2 ts'' =>
      have hjoin : joinComma (t :: t2 :: ts'') = t ++ ',' :: joinComma (t2 :: ts'') := by
        show t ++ [','] ++ joinComma (t2 :: ts'') = t ++ ',' :: joinComma (t2 :: ts'')
        rw [List.append_assoc]
        rfl
      rw [hjoin, splitComma_append_comma t _ (hall t (List.mem_cons_self t _)),
        ih (List.cons_ne_nil t2 ts'') fun x hx => hall x (List.mem_cons_of_mem t hx)]

theorem dropWhile_all (p : Char → Bool) : ∀ (l : List Char), (∀ c ∈ l, p c = true) →
    l.dropWhile p = [] ∧ l.takeWhile p = l := by
  intro l
  induction l with
  | nil => intro _; exact ⟨rfl, rfl⟩
  | cons c t ih =>
    intro h
    have hc := h c (List.mem_cons_self c t)
    have ht := ih fun x hx => h x (List.mem_cons_of_mem c hx)
    simp [List.dropWhile_cons, List.takeWhile_cons, hc, ht.1, ht.2]

theorem jsNumber_natToChars (n : Nat) : jsNumber (natToChars n) = some ((n : Nat) : ℚ) := by
  obtain ⟨d, ds, hds⟩ : ∃ d ds, natToChars n = d :: ds := by
    cases h : natToChars n with
    | nil => exact absurd h (natToChars_ne_nil n)
    | cons d ds => exact ⟨d, ds, rfl⟩
  have hdig : ∀ c ∈ natToChars n, c.isDigit = true := natToChars_isDigit n
  have hd : d.isDigit = true := by
    apply hdig
    rw [hds]
    exact List.mem_cons_self d ds
  have hdm : ¬ d = '-' := by intro h; rw [h] at hd; simp at hd
  have hdp : ¬ d = '+' := by intro h; rw [h] at hd; simp at hd
  have hdrop := dropWhile_all Char.isDigit (natToChars n) hdig
  have hstep : jsNumber (natToChars n) = jsUnsigned (natToChars n) := by
    rw [hds]
    show (if d = '-' then (jsUnsigned ds).map fun q => -q
      else if d = '+' then jsUnsigned ds else jsUnsigned (d :: ds)) = _
    rw [if_neg hdm, if_neg hdp]
  rw [hstep]
  unfold jsUnsigned
  rw [hdrop.1]
  show (if (natToChars n).takeWhile Char.isDigit = [] then none
    else some ((parseDigits ((natToChars n).takeWhile Char.isDigit) : Nat) : ℚ)) = _
  rw [hdrop.2, if_neg (natToChars_ne_nil n), parseDigits_natToChars]

theorem lzwDictD_fst (extra0 : List (List Char × Nat))
    (hsnd : extra0.map Prod.snd = List.range' 256 extra0.length) :
    (lzwSeedD ++ extra0.map fun e => ((e.2 : ℚ), e.1)).map Prod.fst =
      (List.range' 0 (256 + extra0.length)).map fun (i : Nat) => ((i : Nat) : ℚ) := by
  rw [List.map_append]
  have h1 : lzwSeedD.map Prod.fst = (List.range' 0 256).map fun (i : Nat) => ((i : Nat) : ℚ) := by
    unfold lzwSeedD
    rw [← List.range_eq_range', List.map_map]
    rfl
  have h2 : (extra0.map fun e => ((e.2 : ℚ), e.1)).map Prod.fst =
      (List.range' 256 extra0.length).map fun (i : Nat) => ((i : Nat) : ℚ) := by
    rw [List.map_map, ← hsnd, List.map_map]
    rfl
  rw [h1, h2, ← List.map_append]
  congr 1
  have h3 := List.range'_append 0 256 extra0.length 1
  simp only [Nat.one_mul, Nat.zero_add] at h3
  rw [Nat.add_comm 256 extra0.length]
  exact h3

theorem lzwDictD_nodup (extra0 : List (List Char × Nat))
    (hsnd : extra0.map Prod.snd = List.range' 256 extra0.length) :
    ((lzwSeedD ++ extra0.map fun e => ((e.2 : ℚ), e.1)).map Prod.fst).Nodup := by
  rw [lzwDictD_fst extra0 hsnd]
  refine List.Nodup.map_on ?_ (List.nodup_range' 0 (256 + extra0.length))
  intro i _ j _ hij
  exact Nat.cast_inj.mp hij

theorem lzwLookD_ge_none (extra0 : List (List Char × Nat))
    (hsnd : extra0.map Prod.snd = List.range' 256 extra0.length) (k : Nat)
    (hk : 256 + extra0.length ≤ k) :
    lzwLookD (lzwSeedD ++ extra0.map fun e => ((e.2 : ℚ), e.1)) ((k : Nat) : ℚ) = none := by
  unfold lzwLookD
  rw [List.find?_eq_none.mpr]
  · rfl
  · intro e he
    simp only [decide_eq_true_eq]
    intro hek
    have hmem : e.1 ∈ (lzwSeedD ++ extra0.map fun e => ((e.2 : ℚ), e.1)).map Prod.fst :=
      List.mem_map_of_mem Prod.fst he
    rw [lzwDictD_fst extra0 hsnd] at hmem
    obtain ⟨i, hi, hie⟩ := List.mem_map.mp hmem
    rw [List.mem_range'_1] at hi
    rw [← hie] at hek
    have := Nat.cast_inj.mp hek
    omega

theorem lzwLookD_eq (extra0 : List (List Char × Nat))
    (hsnd : extra0.map Prod.snd = List.range' 256 extra0.length) (k : ℚ) (v : List Char)
    (hm : (k, v) ∈ lzwSeedD ++ extra0.map fun e => ((e.2 : ℚ), e.1)) :
    lzwLookD (lzwSeedD ++ extra0.map fun e => ((e.2 : ℚ), e.1)) k = some v := by
  have h := find?_key_unique (Prod.fst : ℚ × List Char → ℚ) k _ (k, v)
    (lzwDictD_nodup extra0 hsnd) hm rfl
  have h' : (lzwSeedD ++ extra0.map fun e => ((e.2 : ℚ), e.1)).find?
      (fun e => e.1 = k) = some (k, v) := h
  unfold lzwLookD
  rw [h']
  rfl

/-- If the encoder's dictionary holds `(w, cw)` — in the seed, in the shared
grown part, or as the one entry the decoder has not yet reconstructed — then
the decoder's entry computation for code `cw` yields `w`.  The last case is
the classic just-assigned-code case: there `w = wd ++ w.take 1`, and the
decoder's `w + w.charAt(0)` equals it. -/
theorem lzw_entry_corr (extra0 : List (List Char × Nat)) (w wd : List Char) (cw : Nat)
    (hw : w ≠ []) (hwd : wd ≠ [])
    (hsnd : extra0.map Prod.snd = List.range' 256 extra0.length)
    (hm : (w, cw) ∈ lzwSeedE ++ (extra0 ++ [(wd ++ w.take 1, 256 + extra0.length)])) :
    lzwEntry (lzwSeedD ++ extra0.map fun e => ((e.2 : ℚ), e.1)) wd (256 + extra0.length)
      ((cw : Nat) : ℚ) = some w := by
  rw [List.mem_append] at hm
  rcases hm with hm | hm
  · obtain ⟨i, hi, hie⟩ := List.mem_map.mp hm
    have hw_eq : [Char.ofNat i] = w := congrArg Prod.fst hie
    have hcw : i = cw := congrArg Prod.snd hie
    have hmem : (((cw : Nat) : ℚ), w) ∈ lzwSeedD ++ extra0.map fun e => ((e.2 : ℚ), e.1) := by
      apply List.mem_append_left
      unfold lzwSeedD
      refine List.mem_map.mpr ⟨i, hi, ?_⟩
      rw [hw_eq, hcw]
    unfold lzwEntry
    rw [lzwLookD_eq extra0 hsnd _ w hmem]
  · rw [List.mem_append] at hm
    rcases hm with hm | hm
    · have hmem : (((cw : Nat) : ℚ), w) ∈ lzwSeedD ++ extra0.map fun e => ((e.2 : ℚ), e.1) :=
        List.mem_append_right _ (List.mem_map.mpr ⟨(w, cw), hm, rfl⟩)
      unfold lzwEntry
      rw [lzwLookD_eq extra0 hsnd _ w hmem]
    · rw [List.mem_singleton] at hm
      have hw_eq : w = wd ++ w.take 1 := congrArg Prod.fst hm
      have hcw : cw = 256 + extra0.length := congrArg Prod.snd hm
      unfold lzwEntry
      rw [hcw, lzwLookD_ge_none extra0 hsnd _ le_rfl, if_pos rfl]
      cases w with
      | nil => exact absurd rfl hw
      | cons a w' =>
        cases wd with
        | nil => exact absurd rfl hwd
        | cons b wd' =>
          simp only [List.take_succ_cons, List.take_zero, List.cons_append] at hw_eq ⊢
          obtain ⟨hab, hw'⟩ := List.cons.inj hw_eq
          subst hab
          rw [hw']

theorem take_one_append (w : List Char) (c : Char) (hw : w ≠ []) :
    (w ++ [c]).take 1 = w.take 1 := by
  cases w with
  | nil => exact absurd rfl hw
  | cons a t => rfl

theorem nodup_keys_snoc {α β : Type} (dict : List (α × β)) (x : α × β)
    (hnd : (dict.map Prod.fst).Nodup) (hx : x.1 ∉ dict.map Prod.fst) :
    ((dict ++ [x]).map Prod.fst).Nodup := by
  rw [List.map_append, List.nodup_append]
  refine ⟨hnd, by simp, ?_⟩
  intro a ha hamem
  simp only [List.map_cons, List.map_nil, List.mem_singleton] at hamem
  exact hx (hamem ▸ ha)

theorem range'_snoc (s n : Nat) : List.range' s n ++ [s + n] = List.range' s (n + 1) := by
  have h3 := List.range'_append s n 1 1
  simp only [Nat.one_mul, List.range'_one] at h3
  rw [Nat.add_comm 1 n] at h3
  exact h3

theorem extra_snd_of_codes (extra0 : List (List Char × Nat)) (key : List Char)
    (hcodes : (extra0 ++ [(key, 256 + extra0.length)]).map Prod.snd =
      List.range' 256 (extra0.length + 1)) :
    extra0.map Prod.snd = List.range' 256 extra0.length := by
  rw [List.map_append] at hcodes
  simp only [List.map_cons, List.map_nil] at hcodes
  rw [← range'_snoc 256 extra0.length] at hcodes
  exact List.append_cancel_right hcodes

theorem lzwEncodeLoop_nil (dict : List (List Char × Nat)) (w : List Char) (sz : Nat) :
    lzwEncodeLoop dict w sz [] = if w = [] then [] else [lzwLookS dict w] := rfl

theorem lzwEncodeLoop_cons (dict : List (List Char × Nat)) (w : List Char) (sz : Nat)
    (c : Char) (rest : List Char) :
    lzwEncodeLoop dict w sz (c :: rest) =
      if (lzwLookS dict (w ++ [c])).isSome then lzwEncodeLoop dict (w ++ [c]) sz rest
      else lzwLookS dict w ::
        lzwEncodeLoop (dict ++ [(w ++ [c], sz)]) [c] (sz + 1) rest := rfl

theorem lzwDecodeLoop_cons (dict : List (ℚ × List Char)) (w : List Char) (sz : Nat)
    (k : ℚ) (rest : List ℚ) :
    lzwDecodeLoop dict w sz (k :: rest) =
      match lzwEntry dict w sz k with
      | none => none
      | some entry =>
        (lzwDecodeLoop (dict ++ [((sz : ℚ), w ++ entry.take 1)]) entry (sz + 1) rest).map
          fun out => entry ++ out := rfl

/-- The lockstep invariant between the encoder mid-phrase and the decoder.
At this point the encoder has a pending nonempty prefix `w` (a key of its
dictionary), the decoder's previous entry is `wd`, the encoder's dictionary
holds the seed, a shared grown part `extra0`, and one entry
`wd ++ w.take 1 ↦ 256 + extra0.length` that the decoder has not yet
reconstructed; codes were assigned consecutively from 256.  Then the
remaining encoder output is a list of real codes, and feeding it to the
decoder continuation produces exactly `w ++ rest`. -/
theorem lzw_coupling : ∀ (rest w wd : List Char) (extra0 : List (List Char × Nat)),
    (∀ c ∈ rest, c.toNat < 256) → w ≠ [] → wd ≠ [] →
    ((lzwSeedE ++ (extra0 ++ [(wd ++ w.take 1, 256 + extra0.length)])).map Prod.fst).Nodup →
    w ∈ (lzwSeedE ++ (extra0 ++ [(wd ++ w.take 1, 256 + extra0.length)])).map Prod.fst →
    (extra0 ++ [(wd ++ w.take 1, 256 + extra0.length)]).map Prod.snd =
      List.range' 256 (extra0.length + 1) →
    ∃ codes : List Nat,
      lzwEncodeLoop (lzwSeedE ++ (extra0 ++ [(wd ++ w.take 1, 256 + extra0.length)])) w
          (256 + extra0.length + 1) rest = codes.map some ∧
      lzwDecodeLoop (lzwSeedD ++ extra0.map fun e => ((e.2 : ℚ), e.1)) wd
          (256 + extra0.length) (codes.map fun n => ((n : Nat) : ℚ)) = some (w ++ rest) := by
  intro rest
  induction rest with
  | nil =>
    intro w wd extra0 _ hw hwd hnd hwmem hcodes
    have hsnd := extra_snd_of_codes extra0 _ hcodes
    obtain ⟨e, he, hef⟩ := List.mem_map.mp hwmem
    have hme : (w, e.2) ∈ lzwSeedE ++ (extra0 ++ [(wd ++ w.take 1, 256 + extra0.length)]) := by
      have heq : e = (w, e.2) := by
        cases e
        simp only [Prod.fst] at hef
        rw [hef]
      rw [← heq]
      exact he
    refine ⟨[e.2], ?_, ?_⟩
    · rw [lzwEncodeLoop_nil, if_neg hw,
        lzwLookS_eq _ w e.2 hnd hme]
      rfl
    · rw [List.map_cons, List.map_nil, lzwDecodeLoop_cons,
        lzw_entry_corr extra0 w wd e.2 hw hwd hsnd hme]
      rfl
  | cons c rest' ih =>
    intro w wd extra0 h255 hw hwd hnd hwmem hcodes
    have hsnd := extra_snd_of_codes extra0 _ hcodes
    have hc255 : c.toNat < 256 := h255 c (List.mem_cons_self c rest')
    by_cases hhit : (lzwLookS (lzwSeedE ++ (extra0 ++ [(wd ++ w.take 1, 256 + extra0.length)]))
        (w ++ [c])).isSome = true
    · -- dictionary hit: extend the pending prefix, nothing is emitted
      have htake : (w ++ [c]).take 1 = w.take 1 := take_one_append w c hw
      obtain ⟨codes, he, hd⟩ := ih (w ++ [c]) wd extra0
        (fun x hx => h255 x (List.mem_cons_of_mem c hx))
        (by simp) hwd (by rw [htake]; exact hnd)
        (by rw [htake]; exact lzwLookS_isSome_mem _ _ hhit)
        (by rw [htake]; exact hcodes)
      rw [htake] at he
      refine ⟨codes, ?_, ?_⟩
      · rw [lzwEncodeLoop_cons, if_pos hhit]
        exact he
      · rw [hd, List.append_assoc]
        rfl
    · -- miss: emit the code of w, register w ++ [c], restart from [c]
      have hmiss : lzwLookS (lzwSeedE ++ (extra0 ++ [(wd ++ w.take 1, 256 + extra0.length)]))
          (w ++ [c]) = none := by
        cases hl : lzwLookS (lzwSeedE ++ (extra0 ++ [(wd ++ w.take 1, 256 + extra0.length)]))
            (w ++ [c]) with
        | none => rfl
        | some v => rw [hl] at hhit; simp at hhit
      have hwcnot : (w ++ [c]) ∉
          (lzwSeedE ++ (extra0 ++ [(wd ++ w.take 1, 256 + extra0.length)])).map Prod.fst := by
        intro hmem
        obtain ⟨e, he, hef⟩ := List.mem_map.mp hmem
        have hme : (w ++ [c], e.2) ∈
            lzwSeedE ++ (extra0 ++ [(wd ++ w.take 1, 256 + extra0.length)]) := by
          have heq : e = (w ++ [c], e.2) := by
            cases e
            simp only [Prod.fst] at hef
            rw [hef]
          rw [← heq]; exact he
        rw [lzwLookS_eq _ _ e.2 hnd hme] at hmiss
        simp at hmiss
      obtain ⟨e, he, hef⟩ := List.mem_map.mp hwmem
      have hme : (w, e.2) ∈ lzwSeedE ++ (extra0 ++ [(wd ++ w.take 1, 256 + extra0.length)]) := by
        have heq : e = (w, e.2) := by
          cases e
          simp only [Prod.fst] at hef
          rw [hef]
        rw [← heq]; exact he
      have hlook : lzwLookS (lzwSeedE ++ (extra0 ++ [(wd ++ w.take 1, 256 + extra0.length)])) w =
          some e.2 := lzwLookS_eq _ w e.2 hnd hme
      -- apply the induction hypothesis to the grown state
      obtain ⟨codes', he', hd'⟩ := ih [c] w
        (extra0 ++ [(wd ++ w.take 1, 256 + extra0.length)])
        (fun x hx => h255 x (List.mem_cons_of_mem c hx))
        (by simp) hw
        (by
          rw [← List.append_assoc]
          have hx : ((w ++ List.take 1 [c], 256 + (extra0 ++
              [(wd ++ w.take 1, 256 + extra0.length)]).length)) =
              ((w ++ [c], 256 + extra0.length + 1) : List Char × Nat) := by
            simp [List.length_append, Nat.add_assoc]
          rw [hx]
          exact nodup_keys_snoc _ _ hnd hwcnot)
        (by
          rw [← List.append_assoc]
          apply List.mem_map_of_mem Prod.fst (a := (([c], c.toNat) : List Char × Nat))
          exact List.mem_append_left _ (List.mem_append_left _ (lzwSeedE_mem c hc255)))
        (by
          rw [List.map_append]
          have hx : (([(w ++ List.take 1 [c], 256 + (extra0 ++
              [(wd ++ w.take 1, 256 + extra0.length)]).length)] :
              List (List Char × Nat)).map Prod.snd) = [256 + (extra0.length + 1)] := by
            simp [List.length_append]
          rw [hx, hcodes, range'_snoc]
          simp [List.length_append])
      refine ⟨e.2 :: codes', ?_, ?_⟩
      · rw [lzwEncodeLoop_cons, if_neg (by rw [hmiss]; simp), hlook, List.map_cons]
        refine congrArg (List.cons (some e.2)) ?_
        rw [← List.append_assoc] at he'
        have hlen : (extra0 ++ [(wd ++ w.take 1, 256 + extra0.length)]).length =
            extra0.length + 1 := by simp
        rw [hlen] at he'
        exact he'
      · rw [List.map_cons, lzwDecodeLoop_cons,
          lzw_entry_corr extra0 w wd e.2 hw hwd hsnd hme]
        show (lzwDecodeLoop ((lzwSeedD ++ extra0.map fun e => ((e.2 : ℚ), e.1)) ++
            [(((256 + extra0.length : Nat) : ℚ), wd ++ w.take 1)]) w
            (256 + extra0.length + 1) (codes'.map fun n => ((n : Nat) : ℚ))).map
            (fun out => w ++ out) = some (w ++ c :: rest')
        rw [List.map_append, ← List.append_assoc] at hd'
        have hlen : (extra0 ++ [(wd ++ w.take 1, 256 + extra0.length)]).length =
            extra0.length + 1 := by simp
        rw [hlen] at hd'
        have hd'' : lzwDecodeLoop ((lzwSeedD ++ extra0.map fun e => ((e.2 : ℚ), e.1)) ++
            [(((256 + extra0.length : Nat) : ℚ), wd ++ w.take 1)]) w
            (256 + extra0.length + 1) (codes'.map fun n => ((n : Nat) : ℚ)) =
            some ([c] ++ rest') := hd'
        rw [hd'']
        rfl

/-- The first phrase of the encoder is always one character (seed keys are
single characters); afterwards the state satisfies the lockstep invariant. -/
theorem lzw_top (c : Char) (rest0 : List Char) (hc : c.toNat < 256)
    (h255 : ∀ x ∈ rest0, x.toNat < 256) :
    ∃ codes : List Nat,
      lzwEncodeLoop lzwSeedE [] 256 (c :: rest0) = (c.toNat :: codes).map some ∧
      lzwDecodeLoop lzwSeedD [c] 256 (codes.map fun n => ((n : Nat) : ℚ)) = some rest0 := by
  have hcseed : ([c], c.toNat) ∈ lzwSeedE := lzwSeedE_mem c hc
  have hlookc : lzwLookS lzwSeedE [c] = some c.toNat :=
    lzwLookS_eq _ _ _ lzwSeedE_fst_nodup hcseed
  have hstep1 : lzwEncodeLoop lzwSeedE [] 256 (c :: rest0) =
      lzwEncodeLoop lzwSeedE [c] 256 rest0 := by
    rw [lzwEncodeLoop_cons]
    rw [if_pos (by rw [List.nil_append, hlookc]; rfl)]
    rfl
  rw [hstep1]
  cases rest0 with
  | nil =>
    refine ⟨[], ?_, rfl⟩
    rw [lzwEncodeLoop_nil, if_neg (by simp), hlookc]
    rfl
  | cons c2 rest1 =>
    have hc2 : c2.toNat < 256 := h255 c2 (List.mem_cons_self c2 rest1)
    have h2 : ([c] ++ [c2]) ∉ lzwSeedE.map Prod.fst := by
      intro hmem
      obtain ⟨e, he, hef⟩ := List.mem_map.mp hmem
      have hlen := lzwSeedE_key_len e he
      rw [hef] at hlen
      simp at hlen
    have hstep2 : lzwEncodeLoop lzwSeedE [c] 256 (c2 :: rest1) =
        lzwLookS lzwSeedE [c] ::
          lzwEncodeLoop (lzwSeedE ++ [([c] ++ [c2], 256)]) [c2] 257 rest1 := by
      rw [lzwEncodeLoop_cons, if_neg (by rw [lzwLookS_none _ _ h2]; simp)]
    obtain ⟨codes', he', hd'⟩ := lzw_coupling rest1 [c2] [c] []
      (fun x hx => h255 x (List.mem_cons_of_mem c2 hx))
      (by simp) (by simp)
      (by exact nodup_keys_snoc lzwSeedE ([c] ++ [c2], 256) lzwSeedE_fst_nodup h2)
      (by
        apply List.mem_map_of_mem Prod.fst (a := (([c2], c2.toNat) : List Char × Nat))
        exact List.mem_append_left _ (lzwSeedE_mem c2 hc2))
      (by rfl)
    have he'' : lzwEncodeLoop (lzwSeedE ++ [([c] ++ [c2], 256)]) [c2] 257 rest1 =
        List.map some codes' := he'
    refine ⟨codes', ?_, ?_⟩
    · rw [hstep2, hlookc, he'', List.map_cons]
    · have hd'' : lzwDecodeLoop lzwSeedD [c] 256 (codes'.map fun n => ((n : Nat) : ℚ)) =
          some ([c2] ++ rest1) := by
        rw [List.map_nil, List.append_nil] at hd'
        exact hd'
      rw [hd'']
      rfl

/-- `lzw.decode` on a text whose tokens all parse to the given integers. -/
theorem lzwDecode_parsed (text : List Char) (k0 : Nat) (ks : List Nat) (htext : text ≠ [])
    (hsplit : (splitComma text).map jsNumber = (k0 :: ks).map fun n => some ((n : Nat) : ℚ)) :
    lzwDecode text =
      match lzwDecodeLoop lzwSeedD [fromCharCodeQ ((k0 : Nat) : ℚ)] 256
          (ks.map fun n => ((n : Nat) : ℚ)) with
      | some out => [fromCharCodeQ ((k0 : Nat) : ℚ)] ++ out
      | none => lzwInvalidErrMsg := by
  unfold lzwDecode
  rw [if_neg htext]
  show (if ((splitComma text).map jsNumber).any Option.isNone then lzwFormatErrMsg
    else
      match ((splitComma text).map jsNumber).map fun o => o.getD 0 with
      | [] => []
      | k0 :: ks =>
        match lzwDecodeLoop lzwSeedD [fromCharCodeQ k0] 256 ks with
        | some out => [fromCharCodeQ k0] ++ out
        | none => lzwInvalidErrMsg) = _
  rw [hsplit]
  have hany : ((k0 :: ks).map fun n => some ((n : Nat) : ℚ)).any Option.isNone = false := by
    rw [List.any_eq_false]
    intro o ho
    obtain ⟨n, -, rfl⟩ := List.mem_map.mp ho
    simp
  rw [hany, List.map_map]
  rfl

/-- C2: for every non-empty input whose code points lie in 0–255,
`lzw.decode` applied to the comma-separated code string produced by
`lzw.encode` returns the input.  In particular "MISSISSIPPI" round-trips
(see the witness). -/
theorem lzw_roundtrip (s : List Char) (hs : s ≠ []) (h255 : ∀ c ∈ s, c.toNat < 256) :
    lzwDecode (lzwEncode s).encoded = s := by
  cases s with
  | nil => exact absurd rfl hs
  | cons c rest0 =>
    have hc : c.toNat < 256 := h255 c (List.mem_cons_self c rest0)
    obtain ⟨codes, henc, hdec⟩ := lzw_top c rest0 hc
      fun x hx => h255 x (List.mem_cons_of_mem c hx)
    have hencfield : (lzwEncode (c :: rest0)).encoded =
        joinComma ((lzwEncodeLoop lzwSeedE [] 256 (c :: rest0)).map showCode) := by
      rw [lzwEncode, if_neg (by exact List.cons_ne_nil c rest0)]
    rw [hencfield, henc]
    have hshow : ((c.toNat :: codes).map some).map showCode =
        (c.toNat :: codes).map natToChars := by
      rw [List.map_map]
      rfl
    rw [hshow]
    have hcom : ∀ t ∈ (c.toNat :: codes).map natToChars, ',' ∉ t := by
      intro t ht
      obtain ⟨n, -, rfl⟩ := List.mem_map.mp ht
      intro hcm
      have := natToChars_isDigit n ',' hcm
      simp [Char.isDigit] at this
    have hsplit : (splitComma (joinComma ((c.toNat :: codes).map natToChars))).map jsNumber =
        (c.toNat :: codes).map fun n => some ((n : Nat) : ℚ) := by
      rw [splitComma_join _ (by simp) hcom, List.map_map]
      exact List.map_congr_left fun n _ => jsNumber_natToChars n
    have hne : joinComma ((c.toNat :: codes).map natToChars) ≠ [] := by
      cases hcs : codes with
      | nil =>
        show joinComma [natToChars c.toNat] ≠ []
        show natToChars c.toNat ≠ []
        exact natToChars_ne_nil c.toNat
      | cons k ks =>
        show joinComma (natToChars c.toNat :: natToChars k :: ks.map natToChars) ≠ []
        show natToChars c.toNat ++ [','] ++
          joinComma (natToChars k :: ks.map natToChars) ≠ []
        intro h
        have := congrArg List.length h
        simp [List.length_append] at this
    rw [lzwDecode_parsed _ c.toNat codes hne hsplit,
      fromCharCodeQ_natCast c.toNat (by omega), Char.ofNat_toNat, hdec]
    rfl

/-- C2 witness: the claim's own example, "MISSISSIPPI". -/
theorem lzw_roundtrip_witness :
    ("MISSISSIPPI".data ≠ [] ∧ ∀ c ∈ "MISSISSIPPI".data, c.toNat < 256) ∧
      lzwDecode (lzwEncode "MISSISSIPPI".data).encoded = "MISSISSIPPI".data :=
  ⟨⟨by decide, by decide⟩, lzw_roundtrip "MISSISSIPPI".data (by decide) (by decide)⟩
